import Mathlib

/-!
Verification of the standard-drinker BAC simulation core.

The definitions below are a shallow embedding of the TypeScript source:
* `Drink`, `addDrink`, `removeDrink`, `updateDrinkTime` from
  `src/context/DrinksContext.tsx`;
* the BAC time-series simulation (`simulate`, `simLoop`, `toBAC`, …) and the
  analytics extractor (`soberTimeInfo`, `peakIndex`, `findCrossing`) from the
  `DrinkGraph` component.

JavaScript numbers are modelled as rationals (`ℚ`); timestamps are epoch
milliseconds as rationals.  The JS `Array.prototype.sort` with comparator
`(a, b) => a.timestamp - b.timestamp` is a stable ascending sort by timestamp;
it is embedded as `List.insertionSort` on the `byTime` relation, which is also
stable.  The simulation consumes the sorted list only through its head, its
last element and order-insensitive filtered sums, so any stable sort by
timestamp yields the same output.
-/

namespace StandardDrinker

/-- A drink event as stored by the app (`Drink` in `src/types`). -/
structure Drink where
  id : String
  name : String
  volumeMl : ℚ
  abv : ℚ
  standardDrinks : ℚ
  timestamp : ℚ
  deriving Repr, DecidableEq

/-- The sex parameter (`Gender` in `src/types`). -/
inductive Gender
  | male
  | female
  deriving Repr, DecidableEq

/-- AUS standard drink formula used by `addDrink`:
`(volumeMl / 1000) * abv * 0.789`. -/
def toStandardDrinks (volumeMl abv : ℚ) : ℚ :=
  volumeMl / 1000 * abv * (789 / 1000)

/-- Function `addDrink` from `DrinksContext.tsx`: prepends a new drink whose
`standardDrinks` is derived from volume and abv at creation time. -/
def addDrink (drinks : List Drink) (id name : String) (volumeMl abv timestamp : ℚ) :
    List Drink :=
  { id := id, name := name, volumeMl := volumeMl, abv := abv,
    standardDrinks := toStandardDrinks volumeMl abv, timestamp := timestamp } :: drinks

/-- Function `removeDrink` from `DrinksContext.tsx`. -/
def removeDrink (drinks : List Drink) (id : String) : List Drink :=
  drinks.filter fun d => decide (d.id ≠ id)

/-- Function `updateDrinkTime` from `DrinksContext.tsx`: set the timestamp of the
matching drink, keep every other field and every other drink. -/
def updateDrinkTime (drinks : List Drink) (id : String) (newTimestamp : ℚ) :
    List Drink :=
  drinks.map fun d => if d.id = id then { d with timestamp := newTimestamp } else d

/-- Widmark distribution ratio: 0.68 for male, 0.55 for female. -/
def distributionRatio : Gender → ℚ
  | .male => 68 / 100
  | .female => 55 / 100

/-- The guarded weight used inside `toBAC`: `weight > 0 ? weight : 1`. -/
def effectiveWeight (weight : ℚ) : ℚ :=
  if weight > 0 then weight else 1

/-- Function `toBAC` from `DrinkGraph`: convert net standard drinks to BAC percent. -/
def toBAC (weight r netSD : ℚ) : ℚ :=
  netSD / (effectiveWeight weight * r)

/-- Constant `stepsInMinutes = 10` from `DrinkGraph`. -/
def stepsInMinutes : ℚ := 10

/-- Constant `stepMs = stepsInMinutes * 60 * 1000` (600000 ms = 10 minutes). -/
def stepMs : ℚ := stepsInMinutes * 60 * 1000

/-- Constant `maxSteps = (24 * 60) / 5` — the literal iteration cap (288). -/
def maxSteps : Nat := 24 * 60 / 5

/-- One sample of the simulated series (`{ time, bac }` in `DrinkGraph`;
the display-only `label` field is omitted). -/
structure Point where
  time : ℚ
  bac : ℚ
  deriving Repr, DecidableEq

/-- Absorb a list of drinks into the running net standard-drink count
(the `forEach`/`for … of` accumulation loops in `DrinkGraph`). -/
def absorb (drinks : List Drink) (net : ℚ) : ℚ :=
  drinks.foldl (fun n d => n + d.standardDrinks) net

/-- The per-run constants of the `while` loop in `DrinkGraph`. -/
structure SimConfig where
  sorted : List Drink
  stepBurnFirstHour : ℚ
  stepBurnSubsequent : ℚ
  weight : ℚ
  r : ℚ
  lastDrinkTime : ℚ

/-- One iteration's update of `currentNetSD` (the loop body of `DrinkGraph`
before the sample is pushed): absorb the drinks whose timestamp falls in
`(currentTime, currentTime + stepMs]`, then subtract the phase-dependent burn
amount, clamping at zero. -/
def stepNet (cfg : SimConfig) (currentNetSD currentTime timeSinceStart : ℚ) : ℚ :=
  let nextTime := currentTime + stepMs
  let drinksInInterval := cfg.sorted.filter fun d =>
    decide (d.timestamp > currentTime) && decide (d.timestamp ≤ nextTime)
  let net1 := absorb drinksInInterval currentNetSD
  let burnAmount :=
    if timeSinceStart < 60 * 60 * 1000 then cfg.stepBurnFirstHour
    else cfg.stepBurnSubsequent
  if net1 > 0 then (if net1 - burnAmount < 0 then 0 else net1 - burnAmount)
  else net1

/-- The `while (steps < maxSteps)` loop of `DrinkGraph`, with the remaining
step budget as fuel.  State: `currentNetSD`, `currentTime`, `timeSinceStart`,
and the accumulated `dataPoints`.  Each iteration updates the net via
`stepNet`, pushes the sample at `nextTime`, and stops early when the current
time has passed the last drink and the BAC is at most 0.001. -/
def simLoop (cfg : SimConfig) : Nat → ℚ → ℚ → ℚ → List Point → List Point
  | 0, _, _, _, acc => acc
  | fuel + 1, currentNetSD, currentTime, timeSinceStart, acc =>
    let net2 := stepNet cfg currentNetSD currentTime timeSinceStart
    let currentBAC := toBAC cfg.weight cfg.r net2
    let acc2 := acc ++ [⟨currentTime + stepMs, currentBAC⟩]
    if currentTime > cfg.lastDrinkTime ∧ currentBAC ≤ 1 / 1000 then acc2
    else simLoop cfg fuel net2 (currentTime + stepMs) (timeSinceStart + stepMs) acc2

/-- The ascending-by-timestamp relation of the sort comparator
`(a, b) => a.timestamp - b.timestamp`. -/
def byTime (a b : Drink) : Prop := a.timestamp ≤ b.timestamp

instance : DecidableRel byTime := fun a b =>
  inferInstanceAs (Decidable (a.timestamp ≤ b.timestamp))

/-- The `points` computation of `DrinkGraph`: sort the drinks, absorb the
near-simultaneous initial drinks, emit the first sample at the first drink's
timestamp, then run the stepped absorption/elimination loop. -/
def simulate (drinks : List Drink) (firstHourBurn subsequentHourBurn weight : ℚ)
    (gender : Gender) : List Point :=
  match drinks.insertionSort byTime with
  | [] => []
  | first :: rest =>
    let sortedDrinks := first :: rest
    let startTime := first.timestamp
    let r := distributionRatio gender
    let stepBurnFirstHour := firstHourBurn / 60 * stepsInMinutes
    let stepBurnSubsequent := subsequentHourBurn / 60 * stepsInMinutes
    let initialDrinks := sortedDrinks.filter fun d =>
      decide (|d.timestamp - startTime| < 1000)
    let currentNetSD := absorb initialDrinks 0
    let firstPoint : Point := ⟨startTime, toBAC weight r currentNetSD⟩
    let lastDrinkTime := (rest.getLastD first).timestamp
    simLoop ⟨sortedDrinks, stepBurnFirstHour, stepBurnSubsequent, weight, r, lastDrinkTime⟩
      maxSteps currentNetSD startTime 0 [firstPoint]

/-- Status tag of the analytics result. -/
inductive SoberStatus
  | under
  | over
  deriving Repr, DecidableEq

/-- The analytics record produced by `soberTimeInfo` (`time` is the threshold
crossing when present; `projected` is the absent-or-true flag). -/
structure SoberInfo where
  status : SoberStatus
  peak : ℚ
  time : Option ℚ
  projected : Bool
  deriving Repr, DecidableEq

/-- Access `points[i].bac` with the JS out-of-range access modelled as a default
(never exercised on in-range indices). -/
def bacAt (points : List Point) (i : Nat) : ℚ :=
  (points.getD i ⟨0, 0⟩).bac

/-- Access `points[i].time` with the same out-of-range default. -/
def timeAt (points : List Point) (i : Nat) : ℚ :=
  (points.getD i ⟨0, 0⟩).time

/-- The peak-scan loop `for (i = 1; i < points.length; i++)` of
`soberTimeInfo`, with the number of remaining iterations as fuel. -/
def peakIndexGo (points : List Point) : Nat → Nat → Nat → Nat
  | 0, _, peakIdx => peakIdx
  | fuel + 1, i, peakIdx =>
    peakIndexGo points fuel (i + 1)
      (if bacAt points i > bacAt points peakIdx then i else peakIdx)

/-- Index of the first occurrence of the maximum `bac` in the series. -/
def peakIndex (points : List Point) : Nat :=
  peakIndexGo points (points.length - 1) 1 0

/-- The crossing-scan loop `for (i = peakIndex; i < points.length; i++)` of
`soberTimeInfo`. -/
def findCrossingGo (points : List Point) : Nat → Nat → Option Nat
  | 0, _ => none
  | fuel + 1, i =>
    if bacAt points i ≤ 5 / 100 then some i
    else findCrossingGo points fuel (i + 1)

/-- First index at or after `start` whose `bac` is at most 0.05, if any. -/
def findCrossing (points : List Point) (start : Nat) : Option Nat :=
  findCrossingGo points (points.length - start) start

/-- Function `soberTimeInfo` from `DrinkGraph`: peak detection, threshold-crossing
search from the peak, and the end-of-horizon projection fallback. -/
def soberTimeInfo (points : List Point) : Option SoberInfo :=
  if points.length = 0 then none
  else
    let pk := peakIndex points
    let peakBAC := bacAt points pk
    if peakBAC < 5 / 100 then some ⟨.under, peakBAC, none, false⟩
    else
      match findCrossing points pk with
      | some i => some ⟨.over, peakBAC, some (timeAt points i), false⟩
      | none => some ⟨.over, peakBAC, some (points.getLastD ⟨0, 0⟩).time, true⟩

/-! ### Structural lemmas about the simulation loop -/

/-- Absorbing a list of drinks adds the sum of their standard drinks. -/
lemma absorb_eq_add_sum (l : List Drink) (net : ℚ) :
    absorb l net = net + (l.map Drink.standardDrinks).sum := by
  induction l generalizing net with
  | nil => simp [absorb]
  | cons d l ih => simp [absorb, List.foldl_cons] at ih ⊢; rw [ih]; ring

/-- The loop only ever appends to the accumulated point list. -/
lemma simLoop_eq_append (cfg : SimConfig) :
    ∀ (fuel : Nat) (net c t : ℚ) (acc : List Point),
      ∃ rest, simLoop cfg fuel net c t acc = acc ++ rest := by
  intro fuel
  induction fuel with
  | zero =>
    intro net c t acc
    exact ⟨[], by simp [simLoop]⟩
  | succ f ih =>
    intro net c t acc
    simp only [simLoop]
    split
    · exact ⟨_, rfl⟩
    · obtain ⟨r, hr⟩ := ih _ _ _ (acc ++ [_])
      rw [hr, List.append_assoc]
      exact ⟨_, rfl⟩

/-- Each loop iteration appends exactly one point, so the total growth is at
most the fuel. -/
lemma simLoop_length_le (cfg : SimConfig) :
    ∀ (fuel : Nat) (net c t : ℚ) (acc : List Point),
      (simLoop cfg fuel net c t acc).length ≤ acc.length + fuel := by
  intro fuel
  induction fuel with
  | zero =>
    intro net c t acc
    simp [simLoop]
  | succ f ih =>
    intro net c t acc
    simp only [simLoop]
    split
    · simp
    · calc (simLoop cfg f _ _ _ (acc ++ [_])).length
          ≤ (acc ++ [_]).length + f := ih _ _ _ _
        _ = acc.length + (f + 1) := by simp; ring

/-- With at least one unit of fuel the loop appends at least one point. -/
lemma simLoop_length_ge (cfg : SimConfig) (fuel : Nat) (hfuel : 1 ≤ fuel)
    (net c t : ℚ) (acc : List Point) :
    acc.length + 1 ≤ (simLoop cfg fuel net c t acc).length := by
  obtain ⟨f, rfl⟩ : ∃ f, fuel = f + 1 := ⟨fuel - 1, by omega⟩
  simp only [simLoop]
  split
  · simp
  · obtain ⟨r, hr⟩ := simLoop_eq_append cfg f _ _ _ (acc ++ [_])
    rw [hr]
    simp

/-- Points already accumulated are left untouched by the loop. -/
lemma simLoop_getElem? (cfg : SimConfig) (fuel : Nat) (net c t : ℚ)
    (acc : List Point) (i : Nat) (h : i < acc.length) :
    (simLoop cfg fuel net c t acc)[i]? = acc[i]? := by
  obtain ⟨r, hr⟩ := simLoop_eq_append cfg fuel net c t acc
  rw [hr, List.getElem?_append_left h]

/-- The head of the accumulated list is preserved by the loop. -/
lemma simLoop_head? (cfg : SimConfig) (fuel : Nat) (net c t : ℚ)
    (p : Point) (acc : List Point) :
    (simLoop cfg fuel net c t (p :: acc)).head? = some p := by
  obtain ⟨r, hr⟩ := simLoop_eq_append cfg fuel net c t (p :: acc)
  rw [hr]
  simp

/-- Generic chain invariant of the loop: relative to any relation that holds
between a point and one sitting exactly `stepMs` later, the loop preserves
chains whose last time is the current time. -/
lemma simLoop_chain (cfg : SimConfig) (R : Point → Point → Prop)
    (hR : ∀ p q : Point, q.time = p.time + stepMs → R p q) :
    ∀ (fuel : Nat) (net c t : ℚ) (acc : List Point),
      List.Chain' R acc →
      acc.getLast?.map Point.time = some c →
      List.Chain' R (simLoop cfg fuel net c t acc) := by
  intro fuel
  induction fuel with
  | zero =>
    intro net c t acc hchain _
    simpa [simLoop] using hchain
  | succ f ih =>
    intro net c t acc hchain hlast
    simp only [simLoop]
    have hchain2 : List.Chain' R
        (acc ++ [⟨c + stepMs, toBAC cfg.weight cfg.r (stepNet cfg net c t)⟩]) := by
      rw [List.chain'_append]
      refine ⟨hchain, List.chain'_singleton _, ?_⟩
      intro x hx y hy
      have hx2 : x.time = c := by
        cases hacc : acc.getLast? with
        | none => rw [hacc] at hx; simp at hx
        | some q =>
          rw [hacc] at hx hlast
          simp at hx hlast
          rw [hx] at hlast
          exact hlast
      have hy2 : y = ⟨c + stepMs, toBAC cfg.weight cfg.r (stepNet cfg net c t)⟩ := by
        have := hy
        simp at this
        exact this.symm
      exact hR x y (by rw [hy2, hx2])
    split
    · exact hchain2
    · exact ih _ _ _ _ hchain2 (by simp)

/-! ### Sortedness facts about the embedded sort -/

instance : IsTotal Drink byTime := ⟨fun a b => le_total a.timestamp b.timestamp⟩

instance : IsTrans Drink byTime := ⟨fun _ _ _ h1 h2 => le_trans h1 h2⟩

/-- The embedded sort really sorts by timestamp. -/
lemma sorted_insertionSort_byTime (l : List Drink) :
    List.Sorted byTime (l.insertionSort byTime) :=
  List.sorted_insertionSort byTime l

/-- The head of a sorted drink list has the minimal timestamp. -/
lemma head_min_of_sorted {a : Drink} {l : List Drink}
    (h : List.Sorted byTime (a :: l)) :
    ∀ d ∈ a :: l, a.timestamp ≤ d.timestamp := by
  intro d hd
  rcases List.mem_cons.mp hd with rfl | hd2
  · exact le_refl _
  · exact List.rel_of_sorted_cons h d hd2

/-- The last element of a sorted drink list has the maximal timestamp. -/
lemma getLastD_max_of_sorted :
    ∀ (l : List Drink) (a : Drink), List.Sorted byTime (a :: l) →
      ∀ d ∈ a :: l, d.timestamp ≤ (l.getLastD a).timestamp := by
  intro l
  induction l with
  | nil =>
    intro a _ d hd
    rcases List.mem_cons.mp hd with rfl | hd2
    · simp
    · simp at hd2
  | cons b t ih =>
    intro a hsort d hd
    have hsort2 : List.Sorted byTime (b :: t) := hsort.of_cons
    have hab : byTime a b := List.rel_of_sorted_cons hsort b (by simp)
    rw [List.getLastD_cons]
    rcases List.mem_cons.mp hd with rfl | hd2
    · exact le_trans hab (ih b hsort2 b (by simp))
    · exact ih b hsort2 d hd2

/-- Unfolding of `simulate` on a nonempty sort result. -/
lemma simulate_eq_simLoop (drinks : List Drink) (bf bs w : ℚ) (g : Gender)
    (first : Drink) (rest : List Drink)
    (hs : drinks.insertionSort byTime = first :: rest) :
    simulate drinks bf bs w g =
      simLoop ⟨first :: rest, bf / 60 * stepsInMinutes, bs / 60 * stepsInMinutes, w,
          distributionRatio g, (rest.getLastD first).timestamp⟩
        maxSteps
        (absorb ((first :: rest).filter fun d =>
          decide (|d.timestamp - first.timestamp| < 1000)) 0)
        first.timestamp 0
        [⟨first.timestamp, toBAC w (distributionRatio g)
          (absorb ((first :: rest).filter fun d =>
            decide (|d.timestamp - first.timestamp| < 1000)) 0)⟩] := by
  unfold simulate
  rw [hs]

/-- Unfolding of `simulate` on the empty input. -/
lemma simulate_nil (bf bs w : ℚ) (g : Gender) :
    simulate [] bf bs w g = [] := by
  unfold simulate
  rfl

/-- The guarded weight is always positive. -/
lemma effectiveWeight_pos (w : ℚ) : 0 < effectiveWeight w := by
  unfold effectiveWeight
  split
  · assumption
  · norm_num

/-- Both distribution ratios are positive. -/
lemma distributionRatio_pos (g : Gender) : 0 < distributionRatio g := by
  cases g <;> norm_num [distributionRatio]

/-- BAC conversion of a nonnegative net is nonnegative. -/
lemma toBAC_nonneg (w r net : ℚ) (hr : 0 < r) (hnet : 0 ≤ net) :
    0 ≤ toBAC w r net :=
  div_nonneg hnet (mul_pos (effectiveWeight_pos w) hr).le

/-- The clamp-at-zero subtraction never returns a negative value. -/
lemma clamp_nonneg (x b : ℚ) : (0 : ℚ) ≤ if x - b < 0 then 0 else x - b := by
  split
  · exact le_refl 0
  · next h => linarith [not_lt.mp h]

/-- If every drink has nonnegative standard drinks, a step keeps the net
nonnegative (the clamp at zero makes this true for any burn amount). -/
lemma stepNet_nonneg (cfg : SimConfig)
    (hd : ∀ d ∈ cfg.sorted, 0 ≤ d.standardDrinks)
    (net c t : ℚ) (hnet : 0 ≤ net) : 0 ≤ stepNet cfg net c t := by
  unfold stepNet
  have h1 : 0 ≤ absorb (cfg.sorted.filter fun d =>
      decide (d.timestamp > c) && decide (d.timestamp ≤ c + stepMs)) net := by
    rw [absorb_eq_add_sum]
    have h2 : 0 ≤ (List.map Drink.standardDrinks (cfg.sorted.filter fun d =>
        decide (d.timestamp > c) && decide (d.timestamp ≤ c + stepMs))).sum := by
      apply List.sum_nonneg
      intro x hx
      obtain ⟨d, hdmem, rfl⟩ := List.mem_map.mp hx
      exact hd d (List.mem_of_mem_filter hdmem)
    linarith
  dsimp only []
  by_cases hpos : absorb (cfg.sorted.filter fun d =>
      decide (d.timestamp > c) && decide (d.timestamp ≤ c + stepMs)) net > 0
  · rw [if_pos hpos]
    split
    · exact clamp_nonneg _ _
    · exact clamp_nonneg _ _
  · rw [if_neg hpos]
    exact h1

/-- Every point the loop emits from a nonnegative net has nonnegative BAC. -/
lemma simLoop_bac_nonneg (cfg : SimConfig)
    (hd : ∀ d ∈ cfg.sorted, 0 ≤ d.standardDrinks) (hr : 0 < cfg.r) :
    ∀ (fuel : Nat) (net c t : ℚ) (acc : List Point), 0 ≤ net →
      (∀ p ∈ acc, 0 ≤ p.bac) →
      ∀ p ∈ simLoop cfg fuel net c t acc, 0 ≤ p.bac := by
  intro fuel
  induction fuel with
  | zero =>
    intro net c t acc _ hacc
    simpa [simLoop] using hacc
  | succ f ih =>
    intro net c t acc hnet hacc
    have hstep : 0 ≤ stepNet cfg net c t := stepNet_nonneg cfg hd net c t hnet
    have hacc2 : ∀ p ∈ acc ++
        [(⟨c + stepMs, toBAC cfg.weight cfg.r (stepNet cfg net c t)⟩ : Point)],
        0 ≤ p.bac := by
      intro p hp
      rcases List.mem_append.mp hp with hp2 | hp2
      · exact hacc p hp2
      · have : p = ⟨c + stepMs, toBAC cfg.weight cfg.r (stepNet cfg net c t)⟩ := by
          simpa using hp2
        rw [this]
        exact toBAC_nonneg _ _ _ hr hstep
    simp only [simLoop]
    split
    · exact hacc2
    · exact ih _ _ _ _ hstep hacc2

/-- Drinks that survive the sort are drinks of the input list. -/
lemma mem_of_mem_insertionSort {drinks : List Drink} {first : Drink}
    {rest : List Drink} (hs : drinks.insertionSort byTime = first :: rest) :
    ∀ d ∈ first :: rest, d ∈ drinks := by
  have hp := List.perm_insertionSort byTime drinks
  rw [hs] at hp
  exact fun d hd => hp.subset hd

/-- Input drinks all survive the sort. -/
lemma mem_insertionSort_of_mem {drinks : List Drink} {first : Drink}
    {rest : List Drink} (hs : drinks.insertionSort byTime = first :: rest) :
    ∀ d ∈ drinks, d ∈ first :: rest := by
  have hp := List.perm_insertionSort byTime drinks
  rw [hs] at hp
  exact fun d hd => hp.symm.subset hd

/-- A nonempty list sorts to a nonempty list. -/
lemma insertionSort_ne_nil {drinks : List Drink} (h : drinks ≠ []) :
    drinks.insertionSort byTime ≠ [] := by
  intro hnil
  have hp := List.perm_insertionSort byTime drinks
  rw [hnil] at hp
  exact h hp.symm.eq_nil

/-- The step length is positive. -/
lemma stepMs_pos : (0 : ℚ) < stepMs := by
  norm_num [stepMs, stepsInMinutes]

/-! ### Claim theorems -/

/-- C3, counterexample: at input weight 1/2 the guarded weight used as the
divisor factor of `toBAC` is 1/2, which is not at least 1 — the guard is
`weight > 0 ? weight : 1`, not a floor at 1. -/
theorem c3_counterexample :
    effectiveWeight (1 / 2) = 1 / 2 ∧ ¬ 1 ≤ effectiveWeight (1 / 2) := by
  constructor
  · norm_num [effectiveWeight]
  · norm_num [effectiveWeight]

/-- C3, amended: for every input weight the guarded weight is positive (the
weight itself when positive, otherwise 1), so the divisor
`effectiveWeight weight * distributionRatio gender` of the BAC conversion is
nonzero and division by zero is unreachable. -/
theorem c3_amended_divisor_nonzero (w : ℚ) (g : Gender) :
    0 < effectiveWeight w ∧ effectiveWeight w * distributionRatio g ≠ 0 :=
  ⟨effectiveWeight_pos w,
    (mul_pos (effectiveWeight_pos w) (distributionRatio_pos g)).ne.symm⟩

/-- C4: with nonnegative standard drinks on every event and nonnegative burn
rates, every emitted simulation point has nonnegative BAC; the effective
weight and the distribution ratio are positive for every input. -/
theorem c4_bac_nonneg (drinks : List Drink) (bf bs w : ℚ) (g : Gender)
    (hd : ∀ d ∈ drinks, 0 ≤ d.standardDrinks) (hbf : 0 ≤ bf) (hbs : 0 ≤ bs) :
    0 < effectiveWeight w ∧ 0 < distributionRatio g ∧
      ∀ p ∈ simulate drinks bf bs w g, 0 ≤ p.bac := by
  refine ⟨effectiveWeight_pos w, distributionRatio_pos g, ?_⟩
  rcases hs : drinks.insertionSort byTime with _ | ⟨first, rest⟩
  · have hnil : drinks = [] := by
      have hp := List.perm_insertionSort byTime drinks
      rw [hs] at hp
      exact hp.symm.eq_nil
    rw [hnil, simulate_nil]
    intro p hp
    simp at hp
  · rw [simulate_eq_simLoop drinks bf bs w g first rest hs]
    have hd2 : ∀ d ∈ first :: rest, 0 ≤ d.standardDrinks :=
      fun d hdm => hd d (mem_of_mem_insertionSort hs d hdm)
    have hnet0 : 0 ≤ absorb ((first :: rest).filter fun d =>
        decide (|d.timestamp - first.timestamp| < 1000)) 0 := by
      rw [absorb_eq_add_sum]
      have h2 : 0 ≤ (List.map Drink.standardDrinks ((first :: rest).filter fun d =>
          decide (|d.timestamp - first.timestamp| < 1000))).sum := by
        apply List.sum_nonneg
        intro x hx
        obtain ⟨d, hdm, rfl⟩ := List.mem_map.mp hx
        exact hd2 d (List.mem_of_mem_filter hdm)
      linarith
    apply simLoop_bac_nonneg _ hd2 (distributionRatio_pos g) maxSteps _ _ _ _ hnet0
    intro p hp
    have hp2 : p = ⟨first.timestamp, toBAC w (distributionRatio g)
        (absorb ((first :: rest).filter fun d =>
          decide (|d.timestamp - first.timestamp| < 1000)) 0)⟩ := by
      simpa using hp
    rw [hp2]
    exact toBAC_nonneg _ _ _ (distributionRatio_pos g) hnet0

/-- C4 witness at a concrete input. -/
theorem c4_bac_nonneg_witness :
    (∀ d ∈ [(⟨"a", "beer", 375, 4, 3 / 2, 0⟩ : Drink)], 0 ≤ d.standardDrinks) ∧
      (0 : ℚ) ≤ 2 ∧ (0 : ℚ) ≤ 1 ∧
      (0 < effectiveWeight 70 ∧ 0 < distributionRatio Gender.male ∧
        ∀ p ∈ simulate [(⟨"a", "beer", 375, 4, 3 / 2, 0⟩ : Drink)] 2 1 70 Gender.male,
          0 ≤ p.bac) := by
  refine ⟨?_, by norm_num, by norm_num, ?_⟩
  · intro d hd
    simp only [List.mem_singleton] at hd
    rw [hd]
    norm_num
  · apply c4_bac_nonneg
    · intro d hd
      simp only [List.mem_singleton] at hd
      rw [hd]
      norm_num
    · norm_num
    · norm_num

/-- C5: the loop budget is the literal `(24 * 60) / 5 = 288`, every emitted
sample is exactly `stepMs` (10 minutes) after its predecessor, and the series
never exceeds `1 + 288 = 289` points — the simulation always terminates. -/
theorem c5_iteration_cap (drinks : List Drink) (bf bs w : ℚ) (g : Gender) :
    (simulate drinks bf bs w g).length ≤ 1 + maxSteps ∧ maxSteps = 288 ∧
      stepMs = 10 * 60 * 1000 ∧
      List.Chain' (fun p q : Point => q.time = p.time + stepMs)
        (simulate drinks bf bs w g) := by
  refine ⟨?_, rfl, by norm_num [stepMs, stepsInMinutes], ?_⟩
  · rcases hs : drinks.insertionSort byTime with _ | ⟨first, rest⟩
    · have hnil : drinks = [] := by
        have hp := List.perm_insertionSort byTime drinks
        rw [hs] at hp
        exact hp.symm.eq_nil
      rw [hnil, simulate_nil]
      simp
    · rw [simulate_eq_simLoop drinks bf bs w g first rest hs]
      calc (simLoop _ maxSteps _ _ _ [_]).length
          ≤ ([_] : List Point).length + maxSteps := simLoop_length_le _ _ _ _ _ _
        _ = 1 + maxSteps := by simp
  · rcases hs : drinks.insertionSort byTime with _ | ⟨first, rest⟩
    · have hnil : drinks = [] := by
        have hp := List.perm_insertionSort byTime drinks
        rw [hs] at hp
        exact hp.symm.eq_nil
      rw [hnil, simulate_nil]
      simp
    · rw [simulate_eq_simLoop drinks bf bs w g first rest hs]
      apply simLoop_chain _ _ (fun p q hq => hq) maxSteps _ _ _ _
        (List.chain'_singleton _)
      simp

/-- C6: for nonempty input the series is strictly increasing in time, and the
first point's time is the earliest drink's timestamp. -/
theorem c6_strict_monotone (drinks : List Drink) (bf bs w : ℚ) (g : Gender)
    (h : drinks ≠ []) :
    List.Chain' (fun p q : Point => p.time < q.time) (simulate drinks bf bs w g) ∧
      ∃ d ∈ drinks,
        (simulate drinks bf bs w g).head?.map Point.time = some d.timestamp ∧
        ∀ e ∈ drinks, d.timestamp ≤ e.timestamp := by
  rcases hs : drinks.insertionSort byTime with _ | ⟨first, rest⟩
  · exact absurd hs (insertionSort_ne_nil h)
  · have hsorted : List.Sorted byTime (first :: rest) := by
      have h2 := sorted_insertionSort_byTime drinks
      rw [hs] at h2
      exact h2
    constructor
    · rw [simulate_eq_simLoop drinks bf bs w g first rest hs]
      apply simLoop_chain _ _ ?_ maxSteps _ _ _ _ (List.chain'_singleton _)
      · simp
      · intro p q hq
        rw [hq]
        linarith [stepMs_pos]
    · refine ⟨first, mem_of_mem_insertionSort hs first (by simp), ?_, ?_⟩
      · rw [simulate_eq_simLoop drinks bf bs w g first rest hs, simLoop_head?]
        simp
      · intro e he
        exact head_min_of_sorted hsorted e (mem_insertionSort_of_mem hs e he)

/-- C6 witness at a concrete input. -/
theorem c6_strict_monotone_witness :
    ([(⟨"a", "beer", 375, 4, 3 / 2, 600⟩ : Drink)] : List Drink) ≠ [] ∧
      (List.Chain' (fun p q : Point => p.time < q.time)
        (simulate [(⟨"a", "beer", 375, 4, 3 / 2, 600⟩ : Drink)] 2 1 70 Gender.male) ∧
      ∃ d ∈ [(⟨"a", "beer", 375, 4, 3 / 2, 600⟩ : Drink)],
        (simulate [(⟨"a", "beer", 375, 4, 3 / 2, 600⟩ : Drink)] 2 1 70
            Gender.male).head?.map Point.time = some d.timestamp ∧
        ∀ e ∈ [(⟨"a", "beer", 375, 4, 3 / 2, 600⟩ : Drink)],
          d.timestamp ≤ e.timestamp) :=
  ⟨by simp, c6_strict_monotone [⟨"a", "beer", 375, 4, 3 / 2, 600⟩] 2 1 70
    Gender.male (by simp)⟩

/-- C7: for a single drink of `s` standard drinks and weight at least 1, the
first simulation point's BAC is exactly `s / (w * r)`. -/
theorem c7_single_drink_first_bac (id name : String) (vol abv s t bf bs w : ℚ)
    (g : Gender) (hw : 1 ≤ w) :
    (simulate [⟨id, name, vol, abv, s, t⟩] bf bs w g).head?.map Point.bac =
      some (s / (w * distributionRatio g)) := by
  have hs : ([⟨id, name, vol, abv, s, t⟩] : List Drink).insertionSort byTime =
      [⟨id, name, vol, abv, s, t⟩] := by
    simp [List.insertionSort, List.orderedInsert]
  rw [simulate_eq_simLoop _ bf bs w g _ _ hs, simLoop_head?]
  simp only [Option.map_some]
  congr 1
  have hfilter : (([⟨id, name, vol, abv, s, t⟩] : List Drink).filter fun d =>
      decide (|d.timestamp - (⟨id, name, vol, abv, s, t⟩ : Drink).timestamp| < 1000)) =
      [⟨id, name, vol, abv, s, t⟩] := by
    simp [List.filter]
  rw [hfilter, absorb_eq_add_sum]
  simp only [List.map_cons, List.map_nil, List.sum_cons, List.sum_nil]
  rw [toBAC]
  have hew : effectiveWeight w = w := by
    rw [effectiveWeight, if_pos (by linarith)]
  rw [hew]
  norm_num

/-- C7 witness at a concrete input. -/
theorem c7_single_drink_first_bac_witness :
    (1 : ℚ) ≤ 70 ∧
      (simulate [⟨"a", "vodka", 1000, 40, 10, 0⟩] 2 1 70 Gender.male).head?.map
        Point.bac = some (10 / (70 * distributionRatio Gender.male)) :=
  ⟨by norm_num,
    c7_single_drink_first_bac "a" "vodka" 1000 40 10 0 2 1 70 Gender.male
      (by norm_num)⟩

/-- C10: empty input yields an empty series with analytics suppressed, and
every nonempty input yields at least 2 points (the 288-step budget guarantees
one loop iteration after the initial sample, and the early-stop check runs
only after that iteration's point is appended). -/
theorem c10_min_two_points (drinks : List Drink) (bf bs w : ℚ) (g : Gender) :
    (simulate [] bf bs w g = [] ∧ soberTimeInfo (simulate [] bf bs w g) = none) ∧
      (drinks ≠ [] → 2 ≤ (simulate drinks bf bs w g).length) := by
  constructor
  · rw [simulate_nil]
    exact ⟨rfl, by simp [soberTimeInfo]⟩
  · intro h
    rcases hs : drinks.insertionSort byTime with _ | ⟨first, rest⟩
    · exact absurd hs (insertionSort_ne_nil h)
    · rw [simulate_eq_simLoop drinks bf bs w g first rest hs]
      have h2 := simLoop_length_ge
        ⟨first :: rest, bf / 60 * stepsInMinutes, bs / 60 * stepsInMinutes, w,
          distributionRatio g, (rest.getLastD first).timestamp⟩
        maxSteps (by norm_num [maxSteps])
        (absorb ((first :: rest).filter fun d =>
          decide (|d.timestamp - first.timestamp| < 1000)) 0)
        first.timestamp 0
        [⟨first.timestamp, toBAC w (distributionRatio g)
          (absorb ((first :: rest).filter fun d =>
            decide (|d.timestamp - first.timestamp| < 1000)) 0)⟩]
      simpa using h2

/-- C10 witness at a concrete input. -/
theorem c10_min_two_points_witness :
    ([(⟨"a", "beer", 375, 4, 3 / 2, 0⟩ : Drink)] : List Drink) ≠ [] ∧
      2 ≤ (simulate [(⟨"a", "beer", 375, 4, 3 / 2, 0⟩ : Drink)] 2 1 70
        Gender.male).length :=
  ⟨by simp,
    (c10_min_two_points [⟨"a", "beer", 375, 4, 3 / 2, 0⟩] 2 1 70 Gender.male).2
      (by simp)⟩

/-! ### Analytics extractor lemmas -/

/-- Loop invariant of the peak scan: starting from a first-occurrence argmax
of the prefix below `i`, the scan returns a first-occurrence argmax of the
whole series. -/
lemma peakIndexGo_spec (points : List Point) :
    ∀ (fuel i pk : Nat), pk < i → i + fuel = points.length →
      (∀ j < i, bacAt points j ≤ bacAt points pk) →
      (∀ j < pk, bacAt points j < bacAt points pk) →
      peakIndexGo points fuel i pk < points.length ∧
        (∀ j < points.length,
          bacAt points j ≤ bacAt points (peakIndexGo points fuel i pk)) ∧
        (∀ j < peakIndexGo points fuel i pk,
          bacAt points j < bacAt points (peakIndexGo points fuel i pk)) := by
  intro fuel
  induction fuel with
  | zero =>
    intro i pk hpk hlen h1 h2
    simp only [peakIndexGo]
    exact ⟨by omega, fun j hj => h1 j (by omega), h2⟩
  | succ f ih =>
    intro i pk hpk hlen h1 h2
    simp only [peakIndexGo]
    by_cases hgt : bacAt points i > bacAt points pk
    · rw [if_pos hgt]
      apply ih (i + 1) i (by omega) (by omega)
      · intro j hj
        rcases Nat.lt_succ_iff_lt_or_eq.mp hj with hj2 | hj2
        · exact le_trans (h1 j hj2) (le_of_lt hgt)
        · rw [hj2]
      · intro j hj
        exact lt_of_le_of_lt (h1 j hj) hgt
    · rw [if_neg hgt]
      apply ih (i + 1) pk (by omega) (by omega)
      · intro j hj
        rcases Nat.lt_succ_iff_lt_or_eq.mp hj with hj2 | hj2
        · exact h1 j hj2
        · rw [hj2]
          exact not_lt.mp hgt
      · exact h2

/-- The peak index is in range, attains the maximum `bac`, and every earlier
index has strictly smaller `bac` (first occurrence wins on ties). -/
lemma peakIndex_spec (points : List Point) (h : 1 ≤ points.length) :
    peakIndex points < points.length ∧
      (∀ j < points.length, bacAt points j ≤ bacAt points (peakIndex points)) ∧
      (∀ j < peakIndex points, bacAt points j < bacAt points (peakIndex points)) := by
  unfold peakIndex
  apply peakIndexGo_spec points (points.length - 1) 1 0 (by omega) (by omega)
  · intro j hj
    have hj0 : j = 0 := by omega
    rw [hj0]
  · intro j hj
    omega

/-- The crossing scan finds the first qualifying index. -/
lemma findCrossingGo_eq_some (points : List Point) :
    ∀ (fuel i j : Nat), i ≤ j → j < i + fuel →
      bacAt points j ≤ 5 / 100 →
      (∀ m, i ≤ m → m < j → 5 / 100 < bacAt points m) →
      findCrossingGo points fuel i = some j := by
  intro fuel
  induction fuel with
  | zero =>
    intro i j h1 h2
    omega
  | succ f ih =>
    intro i j hij hlt hj hmin
    simp only [findCrossingGo]
    by_cases hi : bacAt points i ≤ 5 / 100
    · rw [if_pos hi]
      have hji : j = i := by
        by_contra hne
        exact absurd hi (not_le.mpr (hmin i (le_refl i) (by omega)))
      rw [hji]
    · rw [if_neg hi]
      have hij2 : i + 1 ≤ j := by
        rcases eq_or_lt_of_le hij with hij3 | hij3
        · exact absurd (hij3 ▸ hj) hi
        · omega
      apply ih (i + 1) j hij2 (by omega) hj
      intro m hm hmj
      exact hmin m (by omega) hmj

/-- The crossing scan returns none when every index in its window stays above
the threshold. -/
lemma findCrossingGo_eq_none (points : List Point) :
    ∀ (fuel i : Nat),
      (∀ m, i ≤ m → m < i + fuel → 5 / 100 < bacAt points m) →
      findCrossingGo points fuel i = none := by
  intro fuel
  induction fuel with
  | zero =>
    intro i _
    rfl
  | succ f ih =>
    intro i hmin
    simp only [findCrossingGo]
    rw [if_neg (not_le.mpr (hmin i (le_refl i) (by omega)))]
    apply ih
    intro m hm hmf
    exact hmin m (by omega) (by omega)

/-- C2: the peak is the first index attaining the maximum `bac`; a peak under
0.05 yields `under` with no crossing; otherwise the first index at or after
the peak with `bac` at most 0.05 is reported as the crossing, not projected. -/
theorem c2_peak_and_crossing (points : List Point) (h2 : 2 ≤ points.length) :
    (peakIndex points < points.length ∧
      (∀ j < points.length, bacAt points j ≤ bacAt points (peakIndex points)) ∧
      (∀ j < peakIndex points,
        bacAt points j < bacAt points (peakIndex points))) ∧
    (bacAt points (peakIndex points) < 5 / 100 →
      soberTimeInfo points =
        some ⟨SoberStatus.under, bacAt points (peakIndex points), none, false⟩) ∧
    (∀ j, 5 / 100 ≤ bacAt points (peakIndex points) →
      peakIndex points ≤ j → j < points.length → bacAt points j ≤ 5 / 100 →
      (∀ m, peakIndex points ≤ m → m < j → 5 / 100 < bacAt points m) →
      soberTimeInfo points =
        some ⟨SoberStatus.over, bacAt points (peakIndex points),
          some (timeAt points j), false⟩) := by
  obtain ⟨hlt, hmax, hfirst⟩ := peakIndex_spec points (by omega)
  refine ⟨⟨hlt, hmax, hfirst⟩, ?_, ?_⟩
  · intro hunder
    unfold soberTimeInfo
    rw [if_neg (by omega), if_pos hunder]
  · intro j hge hpj hjlen hjle hmin
    unfold soberTimeInfo
    rw [if_neg (by omega), if_neg (not_lt.mpr hge)]
    have hcross : findCrossing points (peakIndex points) = some j := by
      rw [findCrossing]
      exact findCrossingGo_eq_some points _ _ j hpj (by omega) hjle hmin
    rw [hcross]

/-- C2 witness at a concrete series. -/
theorem c2_peak_and_crossing_witness :
    2 ≤ ([⟨0, 1 / 100⟩, ⟨1, 2 / 100⟩] : List Point).length ∧
      ((peakIndex [⟨0, 1 / 100⟩, ⟨1, 2 / 100⟩] <
          ([⟨0, 1 / 100⟩, ⟨1, 2 / 100⟩] : List Point).length ∧
        (∀ j < ([⟨0, 1 / 100⟩, ⟨1, 2 / 100⟩] : List Point).length,
          bacAt [⟨0, 1 / 100⟩, ⟨1, 2 / 100⟩] j ≤
            bacAt [⟨0, 1 / 100⟩, ⟨1, 2 / 100⟩]
              (peakIndex [⟨0, 1 / 100⟩, ⟨1, 2 / 100⟩])) ∧
        (∀ j < peakIndex [⟨0, 1 / 100⟩, ⟨1, 2 / 100⟩],
          bacAt [⟨0, 1 / 100⟩, ⟨1, 2 / 100⟩] j <
            bacAt [⟨0, 1 / 100⟩, ⟨1, 2 / 100⟩]
              (peakIndex [⟨0, 1 / 100⟩, ⟨1, 2 / 100⟩]))) ∧
      (bacAt [⟨0, 1 / 100⟩, ⟨1, 2 / 100⟩]
          (peakIndex [⟨0, 1 / 100⟩, ⟨1, 2 / 100⟩]) < 5 / 100 →
        soberTimeInfo [⟨0, 1 / 100⟩, ⟨1, 2 / 100⟩] =
          some ⟨SoberStatus.under,
            bacAt [⟨0, 1 / 100⟩, ⟨1, 2 / 100⟩]
              (peakIndex [⟨0, 1 / 100⟩, ⟨1, 2 / 100⟩]), none, false⟩) ∧
      (∀ j, 5 / 100 ≤ bacAt [⟨0, 1 / 100⟩, ⟨1, 2 / 100⟩]
          (peakIndex [⟨0, 1 / 100⟩, ⟨1, 2 / 100⟩]) →
        peakIndex [⟨0, 1 / 100⟩, ⟨1, 2 / 100⟩] ≤ j →
        j < ([⟨0, 1 / 100⟩, ⟨1, 2 / 100⟩] : List Point).length →
        bacAt [⟨0, 1 / 100⟩, ⟨1, 2 / 100⟩] j ≤ 5 / 100 →
        (∀ m, peakIndex [⟨0, 1 / 100⟩, ⟨1, 2 / 100⟩] ≤ m → m < j →
          5 / 100 < bacAt [⟨0, 1 / 100⟩, ⟨1, 2 / 100⟩] m) →
        soberTimeInfo [⟨0, 1 / 100⟩, ⟨1, 2 / 100⟩] =
          some ⟨SoberStatus.over,
            bacAt [⟨0, 1 / 100⟩, ⟨1, 2 / 100⟩]
              (peakIndex [⟨0, 1 / 100⟩, ⟨1, 2 / 100⟩]),
            some (timeAt [⟨0, 1 / 100⟩, ⟨1, 2 / 100⟩] j), false⟩)) :=
  ⟨by norm_num, c2_peak_and_crossing [⟨0, 1 / 100⟩, ⟨1, 2 / 100⟩] (by norm_num)⟩

/-- C8: when the peak is at least 0.05 and no point from the peak onward drops
to 0.05 or below, the analytics report `over` with the last point's time and
`isProjected = true`. -/
theorem c8_projection_fallback (points : List Point) (h2 : 2 ≤ points.length)
    (hpk : 5 / 100 ≤ bacAt points (peakIndex points))
    (hno : ∀ j, peakIndex points ≤ j → j < points.length →
      5 / 100 < bacAt points j) :
    soberTimeInfo points =
      some ⟨SoberStatus.over, bacAt points (peakIndex points),
        some (points.getLastD ⟨0, 0⟩).time, true⟩ := by
  have hlt := (peakIndex_spec points (by omega)).1
  unfold soberTimeInfo
  rw [if_neg (by omega), if_neg (not_lt.mpr hpk)]
  have hnone : findCrossing points (peakIndex points) = none := by
    rw [findCrossing]
    apply findCrossingGo_eq_none
    intro m hm hmlt
    exact hno m hm (by omega)
  rw [hnone]

/-- C8 witness at a concrete series. -/
theorem c8_projection_fallback_witness :
    2 ≤ ([⟨0, 6 / 100⟩, ⟨1, 7 / 100⟩] : List Point).length ∧
      5 / 100 ≤ bacAt [⟨0, 6 / 100⟩, ⟨1, 7 / 100⟩]
        (peakIndex [⟨0, 6 / 100⟩, ⟨1, 7 / 100⟩]) ∧
      (∀ j, peakIndex [⟨0, 6 / 100⟩, ⟨1, 7 / 100⟩] ≤ j →
        j < ([⟨0, 6 / 100⟩, ⟨1, 7 / 100⟩] : List Point).length →
        5 / 100 < bacAt [⟨0, 6 / 100⟩, ⟨1, 7 / 100⟩] j) ∧
      soberTimeInfo [⟨0, 6 / 100⟩, ⟨1, 7 / 100⟩] =
        some ⟨SoberStatus.over,
          bacAt [⟨0, 6 / 100⟩, ⟨1, 7 / 100⟩]
            (peakIndex [⟨0, 6 / 100⟩, ⟨1, 7 / 100⟩]),
          some (([⟨0, 6 / 100⟩, ⟨1, 7 / 100⟩] : List Point).getLastD ⟨0, 0⟩).time,
          true⟩ := by
  have hpeak : peakIndex [⟨0, 6 / 100⟩, ⟨1, 7 / 100⟩] = 1 := by
    norm_num [peakIndex, peakIndexGo, bacAt]
  have hno : ∀ j, peakIndex [⟨0, 6 / 100⟩, ⟨1, 7 / 100⟩] ≤ j →
      j < ([⟨0, 6 / 100⟩, ⟨1, 7 / 100⟩] : List Point).length →
      5 / 100 < bacAt [⟨0, 6 / 100⟩, ⟨1, 7 / 100⟩] j := by
    rw [hpeak]
    intro j hj1 hj2
    simp only [List.length_cons, List.length_nil] at hj2
    have hj3 : j = 1 := by omega
    rw [hj3]
    norm_num [bacAt]
  refine ⟨by norm_num, ?_, hno, ?_⟩
  · rw [hpeak]
    norm_num [bacAt]
  · exact c8_projection_fallback [⟨0, 6 / 100⟩, ⟨1, 7 / 100⟩] (by norm_num)
      (by rw [hpeak]; norm_num [bacAt]) hno

/-- C9: `updateDrinkTime` changes only the matching drink's timestamp — its
other fields are untouched (so `standardDrinks` stays frozen at its
creation-time value) and non-matching drinks are entirely unchanged. -/
theorem c9_update_time_frame (drinks : List Drink) (id : String) (ts : ℚ) :
    (updateDrinkTime drinks id ts).length = drinks.length ∧
    (∀ (i : Nat) (d d2 : Drink), drinks[i]? = some d →
      (updateDrinkTime drinks id ts)[i]? = some d2 →
      d2.id = d.id ∧ d2.name = d.name ∧ d2.volumeMl = d.volumeMl ∧
      d2.abv = d.abv ∧ d2.standardDrinks = d.standardDrinks ∧
      (d.id = id → d2.timestamp = ts) ∧ (d.id ≠ id → d2 = d)) ∧
    ((∀ d ∈ drinks, d.standardDrinks = toStandardDrinks d.volumeMl d.abv) →
      ∀ d2 ∈ updateDrinkTime drinks id ts,
        d2.standardDrinks = toStandardDrinks d2.volumeMl d2.abv) := by
  refine ⟨by simp [updateDrinkTime], ?_, ?_⟩
  · intro i d d2 hd hd2
    rw [updateDrinkTime, List.getElem?_map, hd] at hd2
    rw [Option.map_some'] at hd2
    by_cases hid : d.id = id
    · rw [if_pos hid] at hd2
      obtain rfl : d2 = { d with timestamp := ts } := by
        cases hd2
        rfl
      exact ⟨rfl, rfl, rfl, rfl, rfl, fun _ => rfl, fun hne => absurd hid hne⟩
    · rw [if_neg hid] at hd2
      obtain rfl : d2 = d := by
        cases hd2
        rfl
      exact ⟨rfl, rfl, rfl, rfl, rfl, fun heq => absurd heq hid, fun _ => rfl⟩
  · intro hinv d2 hd2
    rw [updateDrinkTime] at hd2
    obtain ⟨d, hd, rfl⟩ := List.mem_map.mp hd2
    by_cases hid : d.id = id
    · rw [if_pos hid]
      exact hinv d hd
    · rw [if_neg hid]
      exact hinv d hd

/-- C9 witness at a concrete list: the drink with the matching id keeps every
field but the timestamp. -/
theorem c9_update_time_frame_witness :
    ([(⟨"a", "x", 100, 5, 1, 0⟩ : Drink), ⟨"b", "y", 200, 6, 2, 10⟩] :
        List Drink)[0]? = some ⟨"a", "x", 100, 5, 1, 0⟩ ∧
    (updateDrinkTime [⟨"a", "x", 100, 5, 1, 0⟩, ⟨"b", "y", 200, 6, 2, 10⟩]
        "a" 42)[0]? = some ⟨"a", "x", 100, 5, 1, 42⟩ ∧
    ((⟨"a", "x", 100, 5, 1, 42⟩ : Drink).id = (⟨"a", "x", 100, 5, 1, 0⟩ : Drink).id ∧
      (⟨"a", "x", 100, 5, 1, 42⟩ : Drink).name = (⟨"a", "x", 100, 5, 1, 0⟩ : Drink).name ∧
      (⟨"a", "x", 100, 5, 1, 42⟩ : Drink).volumeMl = (⟨"a", "x", 100, 5, 1, 0⟩ : Drink).volumeMl ∧
      (⟨"a", "x", 100, 5, 1, 42⟩ : Drink).abv = (⟨"a", "x", 100, 5, 1, 0⟩ : Drink).abv ∧
      (⟨"a", "x", 100, 5, 1, 42⟩ : Drink).standardDrinks = (⟨"a", "x", 100, 5, 1, 0⟩ : Drink).standardDrinks ∧
      ((⟨"a", "x", 100, 5, 1, 0⟩ : Drink).id = "a" →
        (⟨"a", "x", 100, 5, 1, 42⟩ : Drink).timestamp = 42) ∧
      ((⟨"a", "x", 100, 5, 1, 0⟩ : Drink).id ≠ "a" →
        (⟨"a", "x", 100, 5, 1, 42⟩ : Drink) = ⟨"a", "x", 100, 5, 1, 0⟩)) := by
  refine ⟨by simp, ?_, ?_⟩
  · simp [updateDrinkTime]
  · exact (c9_update_time_frame [⟨"a", "x", 100, 5, 1, 0⟩, ⟨"b", "y", 200, 6, 2, 10⟩]
      "a" 42).2.1 0 ⟨"a", "x", 100, 5, 1, 0⟩ ⟨"a", "x", 100, 5, 1, 42⟩
      (by simp) (by simp [updateDrinkTime])

/-! ### Absorption accounting for the zero-burn run -/

/-- Sum of standard drinks of the events with timestamp in `(lo, hi]` — the
amount the interval filter of one step absorbs. -/
def intervalSum (l : List Drink) (lo hi : ℚ) : ℚ :=
  ((l.filter fun d => decide (d.timestamp > lo) && decide (d.timestamp ≤ hi)).map
    Drink.standardDrinks).sum

/-- Sum of standard drinks of the events with timestamp strictly after `lo`. -/
def tailSum (l : List Drink) (lo : ℚ) : ℚ :=
  ((l.filter fun d => decide (d.timestamp > lo)).map Drink.standardDrinks).sum

/-- Sum of standard drinks of the events within 1 second of `startT` — the
amount the initial absorption takes. -/
def nearStartSum (l : List Drink) (startT : ℚ) : ℚ :=
  ((l.filter fun d => decide (|d.timestamp - startT| < 1000)).map
    Drink.standardDrinks).sum

/-- How many times the run adds one event's standard drinks: once in the
initial near-start absorption when within 1 second of the start, plus once in
an interval step when strictly after the start. -/
def absorbMultiplicity (startT : ℚ) (d : Drink) : ℚ :=
  (if |d.timestamp - startT| < 1000 then 1 else 0) +
  (if d.timestamp > startT then 1 else 0)

/-- Indicator form of `intervalSum`. -/
lemma intervalSum_eq (l : List Drink) (lo hi : ℚ) :
    intervalSum l lo hi =
      (l.map fun d =>
        if lo < d.timestamp ∧ d.timestamp ≤ hi then d.standardDrinks else 0).sum := by
  unfold intervalSum
  induction l with
  | nil => simp
  | cons d t ih =>
    simp only [List.filter_cons, List.map_cons, List.sum_cons]
    by_cases h : lo < d.timestamp ∧ d.timestamp ≤ hi
    · rw [if_pos h]
      have hb : (decide (d.timestamp > lo) && decide (d.timestamp ≤ hi)) = true := by
        simp [h.1, h.2]
      rw [hb]
      simp [ih]
    · rw [if_neg h]
      have hb : (decide (d.timestamp > lo) && decide (d.timestamp ≤ hi)) = false := by
        rcases not_and_or.mp h with h2 | h2 <;> simp [h2]
      rw [hb]
      simp [ih]

/-- Indicator form of `tailSum`. -/
lemma tailSum_eq (l : List Drink) (lo : ℚ) :
    tailSum l lo =
      (l.map fun d => if lo < d.timestamp then d.standardDrinks else 0).sum := by
  unfold tailSum
  induction l with
  | nil => simp
  | cons d t ih =>
    simp only [List.filter_cons, List.map_cons, List.sum_cons]
    by_cases h : lo < d.timestamp
    · have hb : decide (d.timestamp > lo) = true := by simp [h]
      rw [hb, if_pos h]
      simp [ih]
    · have hb : decide (d.timestamp > lo) = false := by simp [h]
      rw [hb, if_neg h]
      simp [ih]

/-- Indicator form of `nearStartSum`. -/
lemma nearStartSum_eq (l : List Drink) (startT : ℚ) :
    nearStartSum l startT =
      (l.map fun d =>
        if |d.timestamp - startT| < 1000 then d.standardDrinks else 0).sum := by
  unfold nearStartSum
  induction l with
  | nil => simp
  | cons d t ih =>
    simp only [List.filter_cons, List.map_cons, List.sum_cons]
    by_cases h : |d.timestamp - startT| < 1000
    · have hb : decide (|d.timestamp - startT| < 1000) = true := by simp [h]
      rw [hb, if_pos h]
      simp [ih]
    · have hb : decide (|d.timestamp - startT| < 1000) = false := by simp [h]
      rw [hb, if_neg h]
      simp [ih]

/-- Mapping an addition of functions splits the sum. -/
lemma sum_map_add (l : List Drink) (f g : Drink → ℚ) :
    (l.map fun d => f d + g d).sum = (l.map f).sum + (l.map g).sum := by
  induction l with
  | nil => simp
  | cons d t ih =>
    simp only [List.map_cons, List.sum_cons, ih]
    ring

/-- An empty interval absorbs nothing. -/
lemma intervalSum_self (l : List Drink) (a : ℚ) : intervalSum l a a = 0 := by
  rw [intervalSum_eq]
  apply List.sum_eq_zero
  intro x hx
  obtain ⟨d, _, rfl⟩ := List.mem_map.mp hx
  rw [if_neg]
  intro h
  exact absurd h.2 (not_le.mpr h.1)

/-- Splitting an interval at an intermediate bound splits the absorbed sum. -/
lemma intervalSum_split (l : List Drink) {a b c : ℚ} (hab : a ≤ b) (hbc : b ≤ c) :
    intervalSum l a c = intervalSum l a b + intervalSum l b c := by
  rw [intervalSum_eq, intervalSum_eq, intervalSum_eq, ← sum_map_add]
  congr 1
  apply List.map_congr_left
  intro d _
  by_cases h1 : a < d.timestamp ∧ d.timestamp ≤ b
  · rw [if_pos ⟨h1.1, le_trans h1.2 hbc⟩, if_pos h1,
      if_neg (fun h2 => absurd h1.2 (not_le.mpr h2.1))]
    ring
  · by_cases h2 : b < d.timestamp ∧ d.timestamp ≤ c
    · rw [if_pos ⟨lt_of_le_of_lt hab h2.1, h2.2⟩, if_neg h1, if_pos h2]
      ring
    · rw [if_neg h1, if_neg h2, if_neg]
      · ring
      · intro h3
        by_cases hb : d.timestamp ≤ b
        · exact h1 ⟨h3.1, hb⟩
        · exact h2 ⟨not_le.mp hb, h3.2⟩

/-- Once the bound dominates every timestamp, the interval sum equals the
whole tail sum. -/
lemma intervalSum_eq_tailSum (l : List Drink) (lo hi : ℚ)
    (h : ∀ d ∈ l, d.timestamp ≤ hi) :
    intervalSum l lo hi = tailSum l lo := by
  rw [intervalSum_eq, tailSum_eq]
  congr 1
  apply List.map_congr_left
  intro d hd
  by_cases h1 : lo < d.timestamp
  · rw [if_pos ⟨h1, h d hd⟩, if_pos h1]
  · rw [if_neg (fun h2 => h1 h2.1), if_neg h1]

/-- With both step burns equal to zero, a step changes the net only by the
interval absorption. -/
lemma stepNet_burn0 (cfg : SimConfig) (net c t : ℚ)
    (hbf : cfg.stepBurnFirstHour = 0) (hbs : cfg.stepBurnSubsequent = 0) :
    stepNet cfg net c t = net + intervalSum cfg.sorted c (c + stepMs) := by
  unfold stepNet
  dsimp only []
  rw [absorb_eq_add_sum, hbf, hbs, ite_self]
  rw [show ((List.map Drink.standardDrinks (cfg.sorted.filter fun d =>
        decide (d.timestamp > c) && decide (d.timestamp ≤ c + stepMs))).sum)
      = intervalSum cfg.sorted c (c + stepMs) from rfl]
  by_cases h : net + intervalSum cfg.sorted c (c + stepMs) > 0
  · rw [if_pos h, if_neg (by linarith), sub_zero]
  · rw [if_neg h]

/-- In a zero-burn run whose horizon covers every drink, the last emitted
point's BAC converts the initial absorption plus the whole tail sum: exactly
the events after the start, each once, on top of the near-start events. -/
lemma simLoop_burn0_getLast (cfg : SimConfig) (startT : ℚ)
    (hbf : cfg.stepBurnFirstHour = 0) (hbs : cfg.stepBurnSubsequent = 0)
    (hlast : ∀ d ∈ cfg.sorted, d.timestamp ≤ cfg.lastDrinkTime) :
    ∀ (fuel : Nat), 1 ≤ fuel → ∀ (A c t : ℚ) (acc : List Point),
      startT ≤ c →
      (∀ d ∈ cfg.sorted, d.timestamp ≤ c + (fuel : ℚ) * stepMs) →
      ∃ q : Point,
        (simLoop cfg fuel (A + intervalSum cfg.sorted startT c) c t acc).getLast?
          = some q ∧
        q.bac = toBAC cfg.weight cfg.r (A + tailSum cfg.sorted startT) := by
  intro fuel
  induction fuel with
  | zero =>
    intro h1
    omega
  | succ f ih =>
    intro _ A c t acc hstart hhor
    simp only [simLoop]
    have hsplit : intervalSum cfg.sorted startT (c + stepMs)
        = intervalSum cfg.sorted startT c + intervalSum cfg.sorted c (c + stepMs) :=
      intervalSum_split cfg.sorted hstart (by linarith [stepMs_pos])
    have hnet2 : stepNet cfg (A + intervalSum cfg.sorted startT c) c t
        = A + intervalSum cfg.sorted startT (c + stepMs) := by
      rw [stepNet_burn0 cfg _ c t hbf hbs, hsplit]
      ring
    rw [hnet2]
    split
    · next hbreak =>
      refine ⟨_, List.getLast?_concat _, ?_⟩
      have heq : intervalSum cfg.sorted startT (c + stepMs) = tailSum cfg.sorted startT :=
        intervalSum_eq_tailSum _ _ _ (fun d hd =>
          le_trans (hlast d hd) (by linarith [stepMs_pos, hbreak.1]))
      rw [heq]
    · rcases Nat.eq_zero_or_pos f with rfl | hf
      · simp only [simLoop]
        refine ⟨_, List.getLast?_concat _, ?_⟩
        have heq : intervalSum cfg.sorted startT (c + stepMs) = tailSum cfg.sorted startT := by
          apply intervalSum_eq_tailSum
          intro d hd
          have h2 := hhor d hd
          push_cast at h2
          linarith
        rw [heq]
      · apply ih hf A (c + stepMs) (t + stepMs) _ (by linarith [stepMs_pos])
        intro d hd
        have h2 := hhor d hd
        push_cast at h2 ⊢
        linarith

/-- C1, amended: in a zero-burn run whose drinks all lie within the 288-step
horizon, the final point's BAC converts the sum of each event's standard
drinks counted with its absorption multiplicity — 2 for events strictly
within 1 second after the first drink (absorbed at session start AND again by
the first step's interval filter), 1 for events exactly at the start or at
least 1 second after it. -/
theorem c1_amended_absorption (drinks : List Drink) (w : ℚ) (g : Gender)
    (startT : ℚ)
    (hmin : ∀ d ∈ drinks, startT ≤ d.timestamp)
    (hmem : ∃ d ∈ drinks, d.timestamp = startT)
    (hhor : ∀ d ∈ drinks, d.timestamp ≤ startT + 288 * stepMs) :
    (∃ q : Point, (simulate drinks 0 0 w g).getLast? = some q ∧
      q.bac = toBAC w (distributionRatio g)
        ((drinks.map fun d => absorbMultiplicity startT d * d.standardDrinks).sum)) ∧
    ∀ d ∈ drinks,
      (startT < d.timestamp ∧ d.timestamp < startT + 1000 →
        absorbMultiplicity startT d = 2) ∧
      (d.timestamp = startT ∨ startT + 1000 ≤ d.timestamp →
        absorbMultiplicity startT d = 1) := by
  constructor
  · obtain ⟨d0, hd0, hd0t⟩ := hmem
    have hne : drinks ≠ [] := by
      intro h
      rw [h] at hd0
      exact absurd hd0 (List.not_mem_nil d0)
    rcases hs : drinks.insertionSort byTime with _ | ⟨first, rest⟩
    · exact absurd hs (insertionSort_ne_nil hne)
    have hp : (first :: rest).Perm drinks := by
      have h2 := List.perm_insertionSort byTime drinks
      rw [hs] at h2
      exact h2
    have hsorted : List.Sorted byTime (first :: rest) := by
      have h2 := sorted_insertionSort_byTime drinks
      rw [hs] at h2
      exact h2
    have hfirstT : first.timestamp = startT := by
      apply le_antisymm
      · exact hd0t ▸ head_min_of_sorted hsorted d0 (mem_insertionSort_of_mem hs d0 hd0)
      · exact hmin first (mem_of_mem_insertionSort hs first (by simp))
    rw [simulate_eq_simLoop drinks 0 0 w g first rest hs]
    have hA : absorb ((first :: rest).filter fun d =>
        decide (|d.timestamp - first.timestamp| < 1000)) 0
        = nearStartSum (first :: rest) startT
          + intervalSum (first :: rest) startT startT := by
      rw [absorb_eq_add_sum, intervalSum_self, hfirstT, nearStartSum]
      ring
    rw [hA, hfirstT]
    obtain ⟨q, hq1, hq2⟩ := simLoop_burn0_getLast
      ⟨first :: rest, 0 / 60 * stepsInMinutes, 0 / 60 * stepsInMinutes, w,
        distributionRatio g, (rest.getLastD first).timestamp⟩ startT
      (by norm_num) (by norm_num)
      (getLastD_max_of_sorted rest first hsorted)
      maxSteps (by norm_num [maxSteps])
      (nearStartSum (first :: rest) startT) startT 0
      [⟨startT, toBAC w (distributionRatio g)
        (nearStartSum (first :: rest) startT
          + intervalSum (first :: rest) startT startT)⟩]
      (le_refl startT)
      (by
        intro d hd
        have h2 := hhor d (mem_of_mem_insertionSort hs d hd)
        have hcast : ((maxSteps : ℕ) : ℚ) = 288 := by norm_num [maxSteps]
        rw [hcast]
        linarith)
    refine ⟨q, hq1, ?_⟩
    rw [hq2]
    have h1 : nearStartSum (first :: rest) startT = nearStartSum drinks startT := by
      unfold nearStartSum
      exact ((hp.filter _).map _).sum_eq
    have h2 : tailSum (first :: rest) startT = tailSum drinks startT := by
      unfold tailSum
      exact ((hp.filter _).map _).sum_eq
    rw [h1, h2]
    congr 1
    rw [nearStartSum_eq, tailSum_eq, ← sum_map_add]
    congr 1
    apply List.map_congr_left
    intro d _
    unfold absorbMultiplicity
    by_cases hn : |d.timestamp - startT| < 1000 <;>
      by_cases hg : startT < d.timestamp <;>
      simp [hn, hg, gt_iff_lt] <;> ring
  · intro d hd
    have hge := hmin d hd
    constructor
    · rintro ⟨h1, h2⟩
      unfold absorbMultiplicity
      rw [if_pos (by rw [abs_of_nonneg (by linarith)]; linarith),
        if_pos (by exact h1)]
      norm_num
    · rintro (h | h)
      · unfold absorbMultiplicity
        rw [if_pos (by rw [h]; simp), if_neg (by rw [h]; exact lt_irrefl startT)]
        norm_num
      · unfold absorbMultiplicity
        rw [if_neg (by rw [abs_of_nonneg (by linarith)]; linarith),
          if_pos (by linarith)]
        norm_num

/-- One-step unfolding of the loop. -/
lemma simLoop_succ (cfg : SimConfig) (f : Nat) (net c t : ℚ) (acc : List Point) :
    simLoop cfg (f + 1) net c t acc =
      if c > cfg.lastDrinkTime ∧ toBAC cfg.weight cfg.r (stepNet cfg net c t) ≤ 1 / 1000
      then acc ++ [⟨c + stepMs, toBAC cfg.weight cfg.r (stepNet cfg net c t)⟩]
      else simLoop cfg f (stepNet cfg net c t) (c + stepMs) (t + stepMs)
        (acc ++ [⟨c + stepMs, toBAC cfg.weight cfg.r (stepNet cfg net c t)⟩]) := rfl

/-- C1, counterexample: two drinks of 1 standard drink each at t = 0 ms and
t = 500 ms, weight 1, male ratio 0.68, zero burn.  If each event were absorbed
exactly once the running net would be 2 and every BAC would be
`toBAC 1 0.68 2 = 50/17`; instead the second sample's BAC is `75/17`, i.e.
the t = 500 event was absorbed at session start and again in the first
10-minute step. -/
theorem c1_counterexample :
    (simulate [⟨"a", "x", 0, 0, 1, 0⟩, ⟨"b", "y", 0, 0, 1, 500⟩] 0 0 1
        Gender.male)[1]?.map Point.bac = some (75 / 17) ∧
      toBAC 1 (distributionRatio Gender.male)
        ((⟨"a", "x", 0, 0, 1, 0⟩ : Drink).standardDrinks +
          (⟨"b", "y", 0, 0, 1, 500⟩ : Drink).standardDrinks) = 50 / 17 ∧
      (75 / 17 : ℚ) ≠ 50 / 17 := by
  refine ⟨?_, by norm_num [toBAC, effectiveWeight, distributionRatio], by norm_num⟩
  have hs : ([(⟨"a", "x", 0, 0, 1, 0⟩ : Drink), ⟨"b", "y", 0, 0, 1, 500⟩] :
      List Drink).insertionSort byTime =
      [⟨"a", "x", 0, 0, 1, 0⟩, ⟨"b", "y", 0, 0, 1, 500⟩] := by
    norm_num [List.insertionSort, List.orderedInsert, byTime]
  rw [simulate_eq_simLoop _ 0 0 1 Gender.male _ _ hs]
  have hA : absorb (([(⟨"a", "x", 0, 0, 1, 0⟩ : Drink), ⟨"b", "y", 0, 0, 1, 500⟩] :
      List Drink).filter fun d =>
        decide (|d.timestamp - (⟨"a", "x", 0, 0, 1, 0⟩ : Drink).timestamp| < 1000)) 0
      = 2 := by
    norm_num [absorb, List.filter]
  rw [hA]
  rw [show maxSteps = 287 + 1 from rfl, simLoop_succ]
  have hstep : stepNet
      ⟨[⟨"a", "x", 0, 0, 1, 0⟩, ⟨"b", "y", 0, 0, 1, 500⟩], 0 / 60 * stepsInMinutes,
        0 / 60 * stepsInMinutes, 1, distributionRatio Gender.male,
        (([(⟨"b", "y", 0, 0, 1, 500⟩ : Drink)] : List Drink).getLastD
          ⟨"a", "x", 0, 0, 1, 0⟩).timestamp⟩
      2 (⟨"a", "x", 0, 0, 1, 0⟩ : Drink).timestamp 0 = 3 := by
    norm_num [stepNet, absorb, List.filter, stepMs, stepsInMinutes]
  rw [if_neg]
  · rw [simLoop_getElem?]
    · rw [hstep]
      norm_num [toBAC, effectiveWeight, distributionRatio]
    · norm_num
  · rw [hstep]
    intro hcon
    have h2 := hcon.1
    norm_num [List.getLastD] at h2

/-- C1 witness for the amended claim at a concrete input. -/
theorem c1_amended_absorption_witness :
    (∀ d ∈ [(⟨"a", "x", 0, 0, 1, 0⟩ : Drink), ⟨"b", "y", 0, 0, 1, 500⟩],
        (0 : ℚ) ≤ d.timestamp) ∧
      (∃ d ∈ [(⟨"a", "x", 0, 0, 1, 0⟩ : Drink), ⟨"b", "y", 0, 0, 1, 500⟩],
        d.timestamp = 0) ∧
      (∀ d ∈ [(⟨"a", "x", 0, 0, 1, 0⟩ : Drink), ⟨"b", "y", 0, 0, 1, 500⟩],
        d.timestamp ≤ 0 + 288 * stepMs) ∧
      ((∃ q : Point,
          (simulate [⟨"a", "x", 0, 0, 1, 0⟩, ⟨"b", "y", 0, 0, 1, 500⟩] 0 0 1
            Gender.male).getLast? = some q ∧
          q.bac = toBAC 1 (distributionRatio Gender.male)
            (([(⟨"a", "x", 0, 0, 1, 0⟩ : Drink), ⟨"b", "y", 0, 0, 1, 500⟩].map
              fun d => absorbMultiplicity 0 d * d.standardDrinks).sum)) ∧
        ∀ d ∈ [(⟨"a", "x", 0, 0, 1, 0⟩ : Drink), ⟨"b", "y", 0, 0, 1, 500⟩],
          ((0 : ℚ) < d.timestamp ∧ d.timestamp < 0 + 1000 →
            absorbMultiplicity 0 d = 2) ∧
          (d.timestamp = 0 ∨ (0 : ℚ) + 1000 ≤ d.timestamp →
            absorbMultiplicity 0 d = 1)) := by
  have h1 : ∀ d ∈ [(⟨"a", "x", 0, 0, 1, 0⟩ : Drink), ⟨"b", "y", 0, 0, 1, 500⟩],
      (0 : ℚ) ≤ d.timestamp := by
    intro d hd
    fin_cases hd <;> norm_num
  have h2 : ∃ d ∈ [(⟨"a", "x", 0, 0, 1, 0⟩ : Drink), ⟨"b", "y", 0, 0, 1, 500⟩],
      d.timestamp = 0 := ⟨⟨"a", "x", 0, 0, 1, 0⟩, by simp, rfl⟩
  have h3 : ∀ d ∈ [(⟨"a", "x", 0, 0, 1, 0⟩ : Drink), ⟨"b", "y", 0, 0, 1, 500⟩],
      d.timestamp ≤ 0 + 288 * stepMs := by
    intro d hd
    fin_cases hd <;> norm_num [stepMs, stepsInMinutes]
  exact ⟨h1, h2, h3,
    c1_amended_absorption [⟨"a", "x", 0, 0, 1, 0⟩, ⟨"b", "y", 0, 0, 1, 500⟩] 1
      Gender.male 0 h1 h2 h3⟩

end StandardDrinker
